import Mathlib

/-!
Verification of the reference-view VS Code extension (src/extension.ts).

The development shallowly embeds the extension's core logic in Lean:

* paths are modelled after Node's POSIX `path.basename` / `path.dirname`,
  working on the character list of the path string;
* JS `Array.prototype.sort` (stable since ES2019) with a single-key
  comparator is modelled by a stable insertion sort over an encoded key
  (`List Nat`, lexicographically ordered); `String.localeCompare` is
  modelled as code-point lexicographic comparison;
* JS `Map` (insertion-ordered keys, buckets built by `push`) is modelled by
  `mapKeys` (first-occurrence key list) together with `List.filter` for the
  buckets;
* asynchronous host calls (document reads, symbol providers) are modelled
  by explicit outcome parameters (`Except`), one per location.
-/

namespace RefView

/-- Lexicographic order on `List Nat`, used as the universal sort-key order.
String keys are encoded as their code-point lists, so this models
`localeCompare`-style comparison as code-point comparison. -/
def natLexLe : List Nat → List Nat → Bool
  | [], _ => true
  | _ :: _, [] => false
  | x :: xs, y :: ys => if x < y then true else if y < x then false else natLexLe xs ys

theorem natLexLe_refl (a : List Nat) : natLexLe a a = true := by
  induction a with
  | nil => rfl
  | cons x xs ih => simp [natLexLe, ih]

theorem natLexLe_cons (x y : Nat) (xs ys : List Nat) :
    natLexLe (x :: xs) (y :: ys) =
      if x < y then true else if y < x then false else natLexLe xs ys := rfl

theorem natLexLe_total (a b : List Nat) : natLexLe a b = true ∨ natLexLe b a = true := by
  induction a generalizing b with
  | nil => left; rfl
  | cons x xs ih =>
    cases b with
    | nil => right; rfl
    | cons y ys =>
      rw [natLexLe_cons, natLexLe_cons]
      rcases Nat.lt_trichotomy x y with h | h | h
      · left; simp [h]
      · subst h
        simp only [Nat.lt_irrefl, if_false]
        exact ih ys
      · right; simp [h]

theorem natLexLe_trans {a b c : List Nat} (h1 : natLexLe a b = true)
    (h2 : natLexLe b c = true) : natLexLe a c = true := by
  induction a generalizing b c with
  | nil => rfl
  | cons x xs ih =>
    cases b with
    | nil => exact absurd h1 (by simp [natLexLe])
    | cons y ys =>
      cases c with
      | nil => exact absurd h2 (by simp [natLexLe])
      | cons z zs =>
        rw [natLexLe_cons] at h1 h2 ⊢
        split_ifs at h1 h2 ⊢ <;> first | rfl | omega | exact ih h1 h2

theorem natLexLe_antisymm {a b : List Nat} (h1 : natLexLe a b = true)
    (h2 : natLexLe b a = true) : a = b := by
  induction a generalizing b with
  | nil =>
    cases b with
    | nil => rfl
    | cons y ys => exact absurd h2 (by simp [natLexLe])
  | cons x xs ih =>
    cases b with
    | nil => exact absurd h1 (by simp [natLexLe])
    | cons y ys =>
      rw [natLexLe_cons] at h1 h2
      split_ifs at h1 h2 <;> first | omega | (rw [ih h1 h2]; congr 1; omega)

/-- Stable insertion of `x` into `l`: `x` is placed before the first element
whose key is not strictly below the key of `x`.  Together with `sortByKey`
this models JS `Array.prototype.sort` (stable) with a single-key comparator. -/
def insertByKey {α : Type} (f : α → List Nat) (x : α) : List α → List α
  | [] => [x]
  | y :: ys => if natLexLe (f x) (f y) then x :: y :: ys else y :: insertByKey f x ys

/-- Stable sort by key: elements are inserted from the right, so an element
earlier in the input is inserted later and lands before elements with an
equal key. -/
def sortByKey {α : Type} (f : α → List Nat) (l : List α) : List α :=
  l.foldr (insertByKey f) []

theorem insertByKey_perm {α : Type} (f : α → List Nat) (x : α) (l : List α) :
    (insertByKey f x l).Perm (x :: l) := by
  induction l with
  | nil => exact List.Perm.refl _
  | cons y ys ih =>
    simp only [insertByKey]
    by_cases h : natLexLe (f x) (f y) = true
    · simp [h]
    · simp only [h, if_false]
      exact (ih.cons y).trans (List.Perm.swap x y ys)

theorem sortByKey_perm {α : Type} (f : α → List Nat) (l : List α) :
    (sortByKey f l).Perm l := by
  induction l with
  | nil => exact List.Perm.refl _
  | cons a t ih =>
    simp only [sortByKey, List.foldr_cons]
    exact (insertByKey_perm f a _).trans (ih.cons a)

theorem mem_insertByKey {α : Type} {f : α → List Nat} {x z : α} {l : List α}
    (h : z ∈ insertByKey f x l) : z = x ∨ z ∈ l := by
  have := (insertByKey_perm f x l).mem_iff.1 h
  simpa using this

theorem insertByKey_sorted {α : Type} (f : α → List Nat) (x : α) (l : List α)
    (h : l.Pairwise (fun a b => natLexLe (f a) (f b) = true)) :
    (insertByKey f x l).Pairwise (fun a b => natLexLe (f a) (f b) = true) := by
  induction l with
  | nil => simp [insertByKey]
  | cons y ys ih =>
    rcases List.pairwise_cons.1 h with ⟨hy, hys⟩
    simp only [insertByKey]
    by_cases hxy : natLexLe (f x) (f y) = true
    · simp only [hxy, if_true]
      refine List.pairwise_cons.2 ⟨?_, h⟩
      intro z hz
      rcases List.mem_cons.1 hz with hz | hz
      · subst hz; exact hxy
      · exact natLexLe_trans hxy (hy z hz)
    · simp only [hxy, if_false]
      refine List.pairwise_cons.2 ⟨?_, ih hys⟩
      intro z hz
      rcases mem_insertByKey hz with hz | hz
      · subst hz
        rcases natLexLe_total (f z) (f y) with h1 | h1
        · exact absurd h1 hxy
        · exact h1
      · exact hy z hz

theorem sortByKey_sorted {α : Type} (f : α → List Nat) (l : List α) :
    (sortByKey f l).Pairwise (fun a b => natLexLe (f a) (f b) = true) := by
  induction l with
  | nil => simp [sortByKey]
  | cons a t ih =>
    simp only [sortByKey, List.foldr_cons]
    exact insertByKey_sorted f a _ ih

theorem insertByKey_filter_eq {α : Type} (f : α → List Nat) (x : α) (l : List α)
    (k : List Nat) (hx : f x = k) :
    (insertByKey f x l).filter (fun a => decide (f a = k)) =
      x :: l.filter (fun a => decide (f a = k)) := by
  induction l with
  | nil => simp [insertByKey, hx]
  | cons y ys ih =>
    simp only [insertByKey]
    by_cases hxy : natLexLe (f x) (f y) = true
    · rw [if_pos hxy]
      simp [List.filter_cons, hx]
    · have hy : f y ≠ k := by
        intro hk
        exact hxy (hk ▸ hx ▸ natLexLe_refl k)
      rw [if_neg hxy]
      simp [List.filter_cons, hy, ih]

theorem insertByKey_filter_ne {α : Type} (f : α → List Nat) (x : α) (l : List α)
    (k : List Nat) (hx : f x ≠ k) :
    (insertByKey f x l).filter (fun a => decide (f a = k)) =
      l.filter (fun a => decide (f a = k)) := by
  induction l with
  | nil => simp [insertByKey, hx]
  | cons y ys ih =>
    simp only [insertByKey]
    by_cases hxy : natLexLe (f x) (f y) = true
    · rw [if_pos hxy]
      simp [List.filter_cons, hx]
    · rw [if_neg hxy]
      simp [List.filter_cons, ih]

/-- Stability of the sort: the elements of a fixed key class appear in the
sorted output exactly in their original input order. -/
theorem sortByKey_filter_key {α : Type} (f : α → List Nat) (l : List α) (k : List Nat) :
    (sortByKey f l).filter (fun a => decide (f a = k)) =
      l.filter (fun a => decide (f a = k)) := by
  induction l with
  | nil => rfl
  | cons a t ih =>
    simp only [sortByKey, List.foldr_cons]
    by_cases ha : f a = k
    · rw [insertByKey_filter_eq f a _ k ha]
      simp only [sortByKey] at ih
      rw [ih]
      simp [ha]
    · rw [insertByKey_filter_ne f a _ k ha]
      simp only [sortByKey] at ih
      rw [ih]
      simp [ha]

/-- Two sorted lists that are permutations of each other and whose key
function is injective on their elements are equal. -/
theorem sorted_perm_key_inj_eq {α : Type} (f : α → List Nat) :
    ∀ (l₁ l₂ : List α), l₁.Perm l₂ →
    l₁.Pairwise (fun a b => natLexLe (f a) (f b) = true) →
    l₂.Pairwise (fun a b => natLexLe (f a) (f b) = true) →
    (∀ a ∈ l₁, ∀ b ∈ l₁, f a = f b → a = b) → l₁ = l₂
  | [], l₂, hp, _, _, _ => hp.nil_eq
  | a :: t₁, l₂, hp, hs₁, hs₂, hinj => by
    cases l₂ with
    | nil => exact absurd hp.symm.nil_eq (by simp)
    | cons b t₂ =>
      rcases List.pairwise_cons.1 hs₁ with ⟨ha, ht₁⟩
      rcases List.pairwise_cons.1 hs₂ with ⟨hb, ht₂⟩
      have hab : a = b := by
        have hmem_a : a ∈ b :: t₂ := hp.subset (by simp)
        have hmem_b : b ∈ a :: t₁ := hp.symm.subset (by simp)
        rcases List.mem_cons.1 hmem_a with h | h
        · exact h
        · rcases List.mem_cons.1 hmem_b with h2 | h2
          · exact h2.symm
          · have h1 : natLexLe (f a) (f b) = true := ha b h2
            have h2' : natLexLe (f b) (f a) = true := hb a h
            exact hinj a (by simp) b (by simp [h2]) (natLexLe_antisymm h1 h2')
      subst hab
      have hpt : t₁.Perm t₂ := hp.cons_inv
      have : t₁ = t₂ :=
        sorted_perm_key_inj_eq f t₁ t₂ hpt ht₁ ht₂
          (fun x hx y hy => hinj x (by simp [hx]) y (by simp [hy]))
      rw [this]

/-- First-occurrence key list: models the key order of a JS `Map` built by
inserting each element's key in list order (`Map` iteration follows key
insertion order). -/
def mapKeys {α κ : Type} [DecidableEq κ] (f : α → κ) : List α → List κ
  | [] => []
  | a :: t => f a :: (mapKeys f t).filter (fun k => decide (k ≠ f a))

theorem mem_mapKeys {α κ : Type} [DecidableEq κ] (f : α → κ) (l : List α) (k : κ) :
    k ∈ mapKeys f l ↔ ∃ a ∈ l, f a = k := by
  induction l with
  | nil => simp [mapKeys]
  | cons a t ih =>
    simp only [mapKeys, List.mem_cons, List.mem_filter]
    constructor
    · rintro (h | ⟨h, _⟩)
      · exact ⟨a, by simp, h.symm⟩
      · rcases ih.1 h with ⟨x, hx, hfx⟩
        exact ⟨x, by simp [hx], hfx⟩
    · rintro ⟨x, hx, hfx⟩
      rcases hx with hx | hx
      · subst hx; left; exact hfx.symm
      · by_cases hk : k = f a
        · left; exact hk
        · right
          exact ⟨ih.2 ⟨x, hx, hfx⟩, by simpa using hk⟩

theorem mapKeys_nodup {α κ : Type} [DecidableEq κ] (f : α → κ) (l : List α) :
    (mapKeys f l).Nodup := by
  induction l with
  | nil => simp [mapKeys]
  | cons a t ih =>
    simp only [mapKeys]
    refine List.Nodup.cons ?_ (ih.filter _)
    intro h
    rcases List.mem_filter.1 h with ⟨_, h2⟩
    simp at h2

theorem mapKeys_perm {α κ : Type} [DecidableEq κ] (f : α → κ) {l l' : List α}
    (hp : l.Perm l') : (mapKeys f l).Perm (mapKeys f l') := by
  rw [List.perm_ext_iff_of_nodup (mapKeys_nodup f l) (mapKeys_nodup f l')]
  intro k
  rw [mem_mapKeys, mem_mapKeys]
  constructor
  · rintro ⟨a, ha, hfa⟩; exact ⟨a, hp.subset ha, hfa⟩
  · rintro ⟨a, ha, hfa⟩; exact ⟨a, hp.symm.subset ha, hfa⟩

theorem count_flatMap_buckets {α κ : Type} [DecidableEq α] [DecidableEq κ]
    (f : α → κ) (l : List α) (x : α) :
    ∀ (ks : List κ), ks.Nodup → (x ∈ l → f x ∈ ks) →
    List.count x (ks.flatMap (fun k => l.filter (fun a => decide (f a = k)))) =
      List.count x l
  | [], _, hmem => by
    simp only [List.flatMap_nil, List.count_nil]
    by_cases hx : x ∈ l
    · exact absurd (hmem hx) (by simp)
    · exact (List.count_eq_zero.2 hx).symm
  | k :: ks, hnd, hmem => by
    rcases List.nodup_cons.1 hnd with ⟨hk, hnd'⟩
    simp only [List.flatMap_cons, List.count_append]
    by_cases hfx : f x = k
    · have h1 : List.count x (l.filter (fun a => decide (f a = k))) = List.count x l :=
        List.count_filter (by simp [hfx])
      have h2 : List.count x (ks.flatMap (fun k => l.filter (fun a => decide (f a = k)))) = 0 := by
        rw [List.count_eq_zero]
        intro hmem2
        rcases List.mem_flatMap.1 hmem2 with ⟨k', hk', hxk'⟩
        rcases List.mem_filter.1 hxk' with ⟨_, hfk'⟩
        have hxk : f x = k' := by simpa using hfk'
        have hkk : k = k' := hfx.symm.trans hxk
        exact hk (hkk ▸ hk')
      omega
    · have h1 : List.count x (l.filter (fun a => decide (f a = k))) = 0 := by
        rw [List.count_eq_zero]
        intro hmem2
        rcases List.mem_filter.1 hmem2 with ⟨_, hfk⟩
        exact hfx (by simpa using hfk)
      have h2 := count_flatMap_buckets f l x ks hnd'
        (fun hx => by rcases List.mem_cons.1 (hmem hx) with h | h
                      · exact absurd h hfx
                      · exact h)
      omega

/-- Partition property of grouping: concatenating the buckets of all
first-occurrence keys recovers the input up to permutation. -/
theorem mapKeys_flatMap_filter_perm {α κ : Type} [DecidableEq α] [DecidableEq κ]
    (f : α → κ) (l : List α) :
    ((mapKeys f l).flatMap (fun k => l.filter (fun a => decide (f a = k)))).Perm l := by
  rw [List.perm_iff_count]
  intro x
  exact count_flatMap_buckets f l x (mapKeys f l) (mapKeys_nodup f l)
    (fun hx => (mem_mapKeys f l (f x)).2 ⟨x, hx, rfl⟩)

/-- Code-point key of a string, used as sort key for all name comparisons
(`localeCompare` in the source). -/
def strKey (s : String) : List Nat := s.data.map Char.toNat

theorem strKey_inj {a b : String} (h : strKey a = strKey b) : a = b := by
  have hchar : Function.Injective Char.toNat := by
    intro c₁ c₂ hc
    rw [← Char.ofNat_toNat c₁, ← Char.ofNat_toNat c₂, hc]
  have hdata : a.data = b.data := List.map_injective_iff.2 hchar h
  cases a; cases b
  exact congrArg String.mk (by simpa using hdata)

/-- Model of JS `String.prototype.trim`, applied to the preview line. -/
def jsTrim (s : String) : String :=
  (((s.data.dropWhile Char.isWhitespace).reverse.dropWhile Char.isWhitespace).reverse).asString

/-- Model of `.replace(/\\/g, "/")` from the source: every backslash becomes
a forward slash. -/
def replaceBackslashes (s : String) : String :=
  (s.data.map (fun c => if c = '\\' then '/' else c)).asString

/-- Split a character list on every slash ( helper for the POSIX `path`
functions used by the source). -/
def splitOnSlash : List Char → List (List Char)
  | [] => [[]]
  | c :: cs =>
    let r := splitOnSlash cs
    if c = '/' then [] :: r
    else
      match r with
      | [] => [[c]]
      | h :: t => (c :: h) :: t

def stripTrailingSlashes (l : List Char) : List Char :=
  (l.reverse.dropWhile (fun c => c = '/')).reverse

/-- Model of Node `path.posix.basename`. -/
def posixBasename (p : String) : String :=
  ((splitOnSlash (stripTrailingSlashes p.data)).getLast?.getD []).asString

def joinSlash : List (List Char) → List Char
  | [] => []
  | [x] => x
  | x :: y :: t => x ++ '/' :: joinSlash (y :: t)

/-- Model of Node `path.posix.dirname`. -/
def posixDirname (p : String) : String :=
  let t := stripTrailingSlashes p.data
  if t.isEmpty then (if p.data.isEmpty then "." else "/")
  else
    match splitOnSlash t with
    | [] => "."
    | [_] => "."
    | x :: y :: rest =>
      let d := joinSlash ((x :: y :: rest).dropLast)
      if d.isEmpty then "/" else d.asString

theorem posixDirname_check1 : posixDirname "/proj/a.ts" = "/proj" := by decide

theorem posixDirname_check2 : posixDirname "/proj/b/c.ts" = "/proj/b" := by decide

theorem posixBasename_check1 : posixBasename "/proj/a.ts" = "a.ts" := by decide

theorem posixDirname_check3 : posixDirname "/a.ts" = "/" := by decide

theorem posixDirname_check4 : posixDirname "a.ts" = "." := by decide

/-- Zero-indexed line/column position (vscode `Position`). -/
structure Position where
  line : Nat
  character : Nat
  deriving DecidableEq

/-- Source range with inclusive endpoints (vscode `Range`); `end_` is the
range's `end` position. -/
structure Range where
  start : Position
  end_ : Position
  deriving DecidableEq

/-- Model of `Position.isBeforeOrEqual`. -/
def posLeB (p q : Position) : Bool :=
  decide (p.line < q.line) || (decide (p.line = q.line) && decide (p.character ≤ q.character))

/-- Model of `Range.contains(position)`. -/
def rangeContainsB (r : Range) (p : Position) : Bool :=
  posLeB r.start p && posLeB p r.end_

theorem posLeB_trans {a b c : Position} (h1 : posLeB a b = true) (h2 : posLeB b c = true) :
    posLeB a c = true := by
  simp only [posLeB, Bool.or_eq_true, Bool.and_eq_true, decide_eq_true_eq] at h1 h2 ⊢
  omega

/-- Document symbol tree node (vscode `DocumentSymbol`): a name, a numeric
`SymbolKind`, a full range and child symbols. -/
inductive DocumentSymbol where
  | mk (name : String) (kind : Nat) (range : Range) (children : List DocumentSymbol)

def DocumentSymbol.name : DocumentSymbol → String
  | .mk n _ _ _ => n

def DocumentSymbol.kind : DocumentSymbol → Nat
  | .mk _ k _ _ => k

def DocumentSymbol.range : DocumentSymbol → Range
  | .mk _ _ r _ => r

def DocumentSymbol.children : DocumentSymbol → List DocumentSymbol
  | .mk _ _ _ cs => cs

/-- Accepted symbol kinds of `findEnclosingSymbol` in the source:
`Function = 11`, `Method = 5`, `Class = 4`, `Constructor = 8` in the vscode
`SymbolKind` numbering. -/
def isGroupingKind (k : Nat) : Bool :=
  decide (k = 11) || decide (k = 5) || decide (k = 4) || decide (k = 8)

/-- Direct model of `findEnclosingSymbol` (extension.ts:496-519): for each
symbol whose range contains the position, search its children first; if no
child matches, accept the symbol itself only when its kind is a grouping
kind, otherwise continue with the remaining siblings. -/
def findEnclosingSymbol (symbols : List DocumentSymbol) (position : Position) :
    Option DocumentSymbol :=
  match symbols with
  | [] => none
  | DocumentSymbol.mk n k r cs :: rest =>
    if rangeContainsB r position then
      match findEnclosingSymbol cs position with
      | some c => some c
      | none =>
        if isGroupingKind k then some (DocumentSymbol.mk n k r cs)
        else findEnclosingSymbol rest position
    else findEnclosingSymbol rest position
termination_by sizeOf symbols
decreasing_by
  all_goals try simp
  all_goals omega

/-- All symbols of a forest, at any depth. -/
def allSymbols (symbols : List DocumentSymbol) : List DocumentSymbol :=
  match symbols with
  | [] => []
  | DocumentSymbol.mk n k r cs :: rest =>
    DocumentSymbol.mk n k r cs :: (allSymbols cs ++ allSymbols rest)
termination_by sizeOf symbols
decreasing_by
  all_goals try simp
  all_goals omega

/-- Endpoint containment of ranges. -/
def subRangeB (r1 r2 : Range) : Bool :=
  posLeB r2.start r1.start && posLeB r1.end_ r2.end_

/-- Well-nested forest: every child's range lies within its parent's range
(the usual shape of provider-returned symbol outlines). -/
def wellNestedB (symbols : List DocumentSymbol) : Bool :=
  (allSymbols symbols).all
    (fun s => s.children.all (fun c => subRangeB c.range s.range))

theorem allSymbols_nil : allSymbols [] = [] := by rw [allSymbols]

theorem allSymbols_cons (n : String) (k : Nat) (r : Range) (cs rest : List DocumentSymbol) :
    allSymbols (DocumentSymbol.mk n k r cs :: rest) =
      DocumentSymbol.mk n k r cs :: (allSymbols cs ++ allSymbols rest) := by
  rw [allSymbols]

/-- Semantic well-nestedness hypothesis: every child's range is contained in
its parent's range, at every depth. -/
def WellNested (l : List DocumentSymbol) : Prop :=
  ∀ s ∈ allSymbols l, ∀ c ∈ s.children, subRangeB c.range s.range = true

theorem wellNested_parts {n : String} {k : Nat} {r : Range} {cs rest : List DocumentSymbol}
    (hw : WellNested (DocumentSymbol.mk n k r cs :: rest)) :
    WellNested cs ∧ WellNested rest := by
  constructor
  · intro s hs c hc
    exact hw s (by rw [allSymbols_cons]; simp [hs]) c hc
  · intro s hs c hc
    exact hw s (by rw [allSymbols_cons]; simp [hs]) c hc

theorem wellNested_head {n : String} {k : Nat} {r : Range} {cs rest : List DocumentSymbol}
    (hw : WellNested (DocumentSymbol.mk n k r cs :: rest)) :
    ∀ c ∈ cs, subRangeB c.range r = true := by
  intro c hc
  have := hw (DocumentSymbol.mk n k r cs) (by rw [allSymbols_cons]; simp) c
  simpa [DocumentSymbol.children, DocumentSymbol.range] using this hc

theorem rangeContainsB_of_subRange {r1 r2 : Range} {p : Position}
    (hsub : subRangeB r1 r2 = true) (h : rangeContainsB r1 p = true) :
    rangeContainsB r2 p = true := by
  simp only [subRangeB, rangeContainsB, Bool.and_eq_true] at hsub h ⊢
  exact ⟨posLeB_trans hsub.1 h.1, posLeB_trans h.2 hsub.2⟩

/-- Under well-nestedness, a position contained in any descendant of a forest
is contained in some top-level symbol of the forest. -/
theorem contains_of_allSymbols (p : Position) :
    ∀ (l : List DocumentSymbol), WellNested l →
      ∀ d ∈ allSymbols l, rangeContainsB d.range p = true →
        ∃ c ∈ l, rangeContainsB c.range p = true
  | [], _, d, hd, _ => by rw [allSymbols_nil] at hd; exact absurd hd (by simp)
  | DocumentSymbol.mk n k r cs :: rest, hw, d, hd, hcont => by
    rcases wellNested_parts hw with ⟨hwcs, hwrest⟩
    rw [allSymbols_cons] at hd
    rcases List.mem_cons.1 hd with hd | hd
    · exact ⟨d, by simp [hd], hcont⟩
    · rcases List.mem_append.1 hd with hd | hd
      · rcases contains_of_allSymbols p cs hwcs d hd hcont with ⟨c, hc, hcc⟩
        have hsub := wellNested_head hw c hc
        exact ⟨DocumentSymbol.mk n k r cs, by simp,
          rangeContainsB_of_subRange hsub hcc⟩
      · rcases contains_of_allSymbols p rest hwrest d hd hcont with ⟨c, hc, hcc⟩
        exact ⟨c, by simp [hc], hcc⟩
termination_by l => sizeOf l
decreasing_by
  all_goals try simp
  all_goals omega

/-- Combined characterization of `findEnclosingSymbol` on well-nested
forests: it returns `none` exactly when no symbol of a grouping kind
contains the position, and a returned symbol is of a grouping kind,
contains the position, belongs to the forest, and has no grouping-kind
descendant containing the position (innermost match). -/
theorem findEnclosingSymbol_spec_aux (p : Position) :
    ∀ (l : List DocumentSymbol), WellNested l →
      ((findEnclosingSymbol l p = none ↔
        ∀ s ∈ allSymbols l, isGroupingKind s.kind = true → rangeContainsB s.range p = false)
      ∧ (∀ s, findEnclosingSymbol l p = some s →
          isGroupingKind s.kind = true ∧ rangeContainsB s.range p = true ∧
          s ∈ allSymbols l ∧
          ∀ d ∈ allSymbols s.children, isGroupingKind d.kind = true →
            rangeContainsB d.range p = false))
  | [], _ => by
    constructor
    · rw [allSymbols_nil]
      simp [findEnclosingSymbol]
    · intro s hs
      simp [findEnclosingSymbol] at hs
  | DocumentSymbol.mk n k r cs :: rest, hw => by
    rcases wellNested_parts hw with ⟨hwcs, hwrest⟩
    have IHcs := findEnclosingSymbol_spec_aux p cs hwcs
    have IHrest := findEnclosingSymbol_spec_aux p rest hwrest
    rw [findEnclosingSymbol]
    by_cases hc : rangeContainsB r p = true
    · rw [if_pos hc]
      cases hfc : findEnclosingSymbol cs p with
      | some c =>
        rcases IHcs.2 c hfc with ⟨hg, hcont, hmem, hinner⟩
        constructor
        · constructor
          · intro h; exact absurd h (by simp)
          · intro hall
            have := hall c (by rw [allSymbols_cons]; simp [hmem]) hg
            rw [hcont] at this
            exact absurd this (by simp)
        · intro s hs
          have hsc : c = s := by simpa using hs
          subst hsc
          exact ⟨hg, hcont, by rw [allSymbols_cons]; simp [hmem], hinner⟩
      | none =>
        have hcsall : ∀ d ∈ allSymbols cs, isGroupingKind d.kind = true →
            rangeContainsB d.range p = false := IHcs.1.1 hfc
        by_cases hg : isGroupingKind k = true
        · rw [if_pos hg]
          constructor
          · constructor
            · intro h; exact absurd h (by simp)
            · intro hall
              have := hall (DocumentSymbol.mk n k r cs) (by rw [allSymbols_cons]; simp)
              rw [DocumentSymbol.kind] at this
              have := this hg
              rw [DocumentSymbol.range] at this
              rw [hc] at this
              exact absurd this (by simp)
          · intro s hs
            have hss : DocumentSymbol.mk n k r cs = s := by simpa using hs
            subst hss
            refine ⟨by rw [DocumentSymbol.kind]; exact hg,
              by rw [DocumentSymbol.range]; exact hc,
              by rw [allSymbols_cons]; simp, ?_⟩
            rw [DocumentSymbol.children]
            exact hcsall
        · rw [if_neg hg]
          constructor
          · rw [IHrest.1]
            constructor
            · intro hall s hs hsg
              rw [allSymbols_cons] at hs
              rcases List.mem_cons.1 hs with hs | hs
              · subst hs
                rw [DocumentSymbol.kind] at hsg
                exact absurd hsg hg
              · rcases List.mem_append.1 hs with hs | hs
                · exact hcsall s hs hsg
                · exact hall s hs hsg
            · intro hall s hs hsg
              exact hall s (by rw [allSymbols_cons]; simp [hs]) hsg
          · intro s hs
            rcases IHrest.2 s hs with ⟨h1, h2, h3, h4⟩
            exact ⟨h1, h2, by rw [allSymbols_cons]; simp [h3], h4⟩
    · rw [if_neg hc]
      have hcsnone : ∀ d ∈ allSymbols cs, rangeContainsB d.range p = false := by
        intro d hd
        by_contra hdc
        have hdc' : rangeContainsB d.range p = true := by
          cases h : rangeContainsB d.range p
          · exact absurd h hdc
          · rfl
        rcases contains_of_allSymbols p cs hwcs d hd hdc' with ⟨c, hcc, hccont⟩
        have hsub := wellNested_head hw c hcc
        exact hc (rangeContainsB_of_subRange hsub hccont)
      constructor
      · rw [IHrest.1]
        constructor
        · intro hall s hs hsg
          rw [allSymbols_cons] at hs
          rcases List.mem_cons.1 hs with hs | hs
          · subst hs
            rw [DocumentSymbol.range]
            cases h : rangeContainsB r p
            · rfl
            · exact absurd h hc
          · rcases List.mem_append.1 hs with hs | hs
            · exact hcsnone s hs
            · exact hall s hs hsg
        · intro hall s hs hsg
          exact hall s (by rw [allSymbols_cons]; simp [hs]) hsg
      · intro s hs
        rcases IHrest.2 s hs with ⟨h1, h2, h3, h4⟩
        exact ⟨h1, h2, by rw [allSymbols_cons]; simp [h3], h4⟩
termination_by l => sizeOf l
decreasing_by
  all_goals try simp
  all_goals omega

/-- One raw provider result (vscode `Location`): the stringified uri, the
filesystem path of the uri, and the zero-indexed start line/character of the
range. -/
structure Location where
  uriStr : String
  fsPath : String
  line : Nat
  character : Nat
  deriving DecidableEq

def Location.startPos (loc : Location) : Position :=
  { line := loc.line, character := loc.character }

/-- Host outcomes for the enrichment of one location: the text of the
location's start line from the opened document (or a read failure), and the
document-symbol provider result (`Except.error` models a thrown failure,
`Except.ok none` an `undefined` result). -/
structure DocEnv where
  lineText : Except String String
  symbols : Except String (Option (List DocumentSymbol))

/-- Enriched reference record (`ReferenceLeaf` in extension.ts). -/
structure ReferenceLeaf where
  uri : String
  fileName : String
  fullPath : String
  line : Nat
  character : Nat
  previewText : String
  enclosingSymbol : Option String
  originalLocation : Location
  deriving DecidableEq

/-- Model of one iteration of the enrichment loop
(extension.ts:526-562): the document read, the line-text extraction, the
symbol-provider call and the enclosing-symbol search all live in one
`try`/`catch`; any failure inside it sets the preview text to the fixed
placeholder and leaves the enclosing symbol unset, and the leaf is pushed
regardless. -/
def enrichOne (loc : Location) (env : DocEnv) : ReferenceLeaf :=
  let fullPath := loc.fsPath
  let fileName := posixBasename fullPath
  let res : String × Option String :=
    match env.lineText with
    | .error _ => ("[Error loading preview]", none)
    | .ok text =>
      match env.symbols with
      | .error _ => ("[Error loading preview]", none)
      | .ok none => (jsTrim text, none)
      | .ok (some syms) =>
        (jsTrim text,
          if syms.isEmpty then none
          else (findEnclosingSymbol syms loc.startPos).map DocumentSymbol.name)
  { uri := loc.uriStr, fileName := fileName, fullPath := fullPath,
    line := loc.line, character := loc.character,
    previewText := res.1, enclosingSymbol := res.2, originalLocation := loc }

/-- Enrichment of all locations, one leaf per location in input order; the
host outcomes are indexed by position in the input list. -/
def enrichAll (locations : List Location) (env : Nat → DocEnv) : List ReferenceLeaf :=
  locations.mapIdx (fun i loc => enrichOne loc (env i))

/-- Child of a `FileNode`: a function group or a loose reference. -/
inductive FileChild where
  | group (functionName : String) (references : List ReferenceLeaf)
  | leaf (ref : ReferenceLeaf)
  deriving DecidableEq

structure FileNode where
  fileName : String
  fullPath : String
  children : List FileChild
  deriving DecidableEq

/-- Top-level tree node.  The TS type of `DirectoryNode.children` is
`(DirectoryNode | FileNode)[]`, but the builder only ever stores `FileNode`
values there (and the spec's data model says `FileNode` list), so directory
children are modelled as a `FileNode` list. -/
inductive TreeNode where
  | file (f : FileNode)
  | directory (dirName : String) (fullPath : String) (children : List FileNode)
  deriving DecidableEq

/-- Model of Step 2/3 of `groupReferencesByDirectoryAndFile`
(extension.ts:577-607): bucket a file's leaves by enclosing-symbol name
(first-occurrence name order, buckets in input order), emit the function
groups sorted by name with members sorted by line, then the loose leaves
sorted by line. -/
def buildFileChildren (leaves : List ReferenceLeaf) : List FileChild :=
  let grouped := leaves.filter (fun x => x.enclosingSymbol.isSome)
  let loose := leaves.filter (fun x => x.enclosingSymbol.isNone)
  let names := mapKeys (fun s => s) (grouped.filterMap (fun x => x.enclosingSymbol))
  let sortedNames := sortByKey strKey names
  (sortedNames.map (fun nm =>
    FileChild.group nm (sortByKey (fun x => [x.line])
      (leaves.filter (fun x => decide (x.enclosingSymbol = some nm)))))) ++
  (sortByKey (fun x => [x.line]) loose).map FileChild.leaf

/-- Model of Step 2/3 over all files: one `FileNode` candidate per distinct
`fullPath` in first-occurrence order, kept only when it has children. -/
def fileNodesOf (allLeaves : List ReferenceLeaf) : List FileNode :=
  (mapKeys (fun x => x.fullPath) allLeaves).filterMap (fun p =>
    let children := buildFileChildren (allLeaves.filter (fun x => decide (x.fullPath = p)))
    if children.isEmpty then none
    else some { fileName := posixBasename p, fullPath := p, children := children })

/-- Normalized directory path of a file (extension.ts:628). -/
def dirPathOf (fullPath : String) : String :=
  replaceBackslashes (posixDirname fullPath)

/-- Root classification (extension.ts:629-636): the directory path equals a
workspace root, or — when no workspace roots exist — the separator-free /
current-directory heuristics of the source. -/
def isRootFile (workspaceRootPaths : List String) (fullPath : String) : Bool :=
  let dirPath := dirPathOf fullPath
  if workspaceRootPaths.any (fun root => decide (dirPath = root)) then true
  else if workspaceRootPaths.isEmpty then
    if !(dirPath.data.any (fun c => decide (c = '/'))) && !(decide (dirPath = ".")) then true
    else if decide (dirPath = ".") || decide (dirPath = posixBasename fullPath) then true
    else false
  else false

def rootFileNodes (roots : List String) (leaves : List ReferenceLeaf) : List FileNode :=
  (fileNodesOf leaves).filter (fun f => isRootFile roots f.fullPath)

def nonRootFileNodes (roots : List String) (leaves : List ReferenceLeaf) : List FileNode :=
  (fileNodesOf leaves).filter (fun f => !isRootFile roots f.fullPath)

def dirKeysOf (roots : List String) (leaves : List ReferenceLeaf) : List String :=
  mapKeys (fun f => dirPathOf f.fullPath) (nonRootFileNodes roots leaves)

def dirFiles (roots : List String) (leaves : List ReferenceLeaf) (d : String) :
    List FileNode :=
  (nonRootFileNodes roots leaves).filter (fun f => decide (dirPathOf f.fullPath = d))

def displayName : TreeNode → String
  | .file f => f.fileName
  | .directory dn _ _ => dn

/-- Rank used by the final comparator (extension.ts:669-675): directories
sort before files; within a type, display names are compared. -/
def typeRank : TreeNode → Nat
  | .directory _ _ _ => 0
  | .file _ => 1

def topKey (n : TreeNode) : List Nat := typeRank n :: strKey (displayName n)

def nodeHasChildren : TreeNode → Bool
  | .file f => !f.children.isEmpty
  | .directory _ _ cs => !cs.isEmpty

/-- Model of Steps 4-6 of `groupReferencesByDirectoryAndFile`
(extension.ts:619-682): classify files as root or directory-bucketed, sort
root files by name, append directory nodes in ascending path order with
their files sorted by name, apply the final type-then-name sort, and prune
childless nodes. -/
def buildTree (workspaceFolderPaths : List String) (leaves : List ReferenceLeaf) :
    List TreeNode :=
  let workspaceRootPaths := workspaceFolderPaths.map replaceBackslashes
  let rootSorted := (sortByKey (fun f => strKey f.fileName)
    (rootFileNodes workspaceRootPaths leaves)).map TreeNode.file
  let dirs := (sortByKey strKey (dirKeysOf workspaceRootPaths leaves)).map (fun d =>
    TreeNode.directory (posixBasename d) d
      (sortByKey (fun f => strKey f.fileName) (dirFiles workspaceRootPaths leaves d)))
  (sortByKey topKey (rootSorted ++ dirs)).filter nodeHasChildren

/-- Full model of `groupReferencesByDirectoryAndFile` (extension.ts:521-682):
enrichment followed by the pure tree construction. -/
def groupReferencesByDirectoryAndFile (locations : List Location) (env : Nat → DocEnv)
    (workspaceFolderPaths : List String) : List TreeNode :=
  buildTree workspaceFolderPaths (enrichAll locations env)

def fileChildLeaves : FileChild → List ReferenceLeaf
  | .group _ refs => refs
  | .leaf r => [r]

def fileLeaves (f : FileNode) : List ReferenceLeaf :=
  f.children.flatMap fileChildLeaves

def nodeLeaves : TreeNode → List ReferenceLeaf
  | .file f => fileLeaves f
  | .directory _ _ cs => cs.flatMap fileLeaves

def treeLeaves (t : List TreeNode) : List ReferenceLeaf :=
  t.flatMap nodeLeaves

/-- Messages posted by the controller to the webview. -/
inductive Message where
  | updateTreeData (references : List TreeNode)
  | updateMonacoContent (content : String) (language : String) (revealLine : Nat)
      (theme : String) (fileUri : String)
  | updateMonacoTheme (theme : String)
  deriving DecidableEq

/-- Initial preview placeholder of the provider (extension.ts:163-164). -/
def defaultMonacoContent : String :=
  "// Select a reference on the left to see its context here.\n// Double-click a reference to navigate in the main editor."

/-- Mutable fields of `ReferencesViewProvider` that form the view state. -/
structure ViewState where
  currentReferences : List TreeNode
  currentLanguage : String
  currentMonacoContent : String
  currentMonacoRevealLine : Nat
  currentMonacoFileUri : String
  currentMonacoTheme : String
  deriving DecidableEq

def initialViewState : ViewState :=
  { currentReferences := [], currentLanguage := "plaintext",
    currentMonacoContent := defaultMonacoContent, currentMonacoRevealLine := 1,
    currentMonacoFileUri := "", currentMonacoTheme := "vs" }

/-- Model of `sendCurrentDataToWebview` (extension.ts:397-420): when the view
exists and is visible, post the full tree, and post the full preview update
unless the preview content is still the initial placeholder while references
are present; otherwise post nothing. -/
def sendCurrentDataToWebview (s : ViewState) (viewExists viewVisible : Bool) :
    List Message :=
  if viewExists && viewVisible then
    [Message.updateTreeData s.currentReferences] ++
    (if s.currentMonacoContent != defaultMonacoContent || s.currentReferences.isEmpty then
      [Message.updateMonacoContent s.currentMonacoContent s.currentLanguage
        s.currentMonacoRevealLine s.currentMonacoTheme s.currentMonacoFileUri]
    else [])
  else []

/-- Pre-order first leaf over file children (`findFirstLeafRecursive`,
extension.ts:346-361). -/
def findFirstLeafChildren : List FileChild → Option ReferenceLeaf
  | [] => none
  | FileChild.leaf r :: _ => some r
  | FileChild.group _ refs :: rest =>
    match refs with
    | [] => findFirstLeafChildren rest
    | r :: _ => some r

def findFirstLeafFiles : List FileNode → Option ReferenceLeaf
  | [] => none
  | f :: rest =>
    match findFirstLeafChildren f.children with
    | some r => some r
    | none => findFirstLeafFiles rest

def findFirstLeaf : List TreeNode → Option ReferenceLeaf
  | [] => none
  | TreeNode.file f :: rest =>
    match findFirstLeafChildren f.children with
    | some r => some r
    | none => findFirstLeaf rest
  | TreeNode.directory _ _ cs :: rest =>
    match findFirstLeafFiles cs with
    | some r => some r
    | none => findFirstLeaf rest

/-- Outcome of the asynchronous preload of the first leaf's file content in
`updateViewData` (extension.ts:367-385): on success, the full file content
plus the optional more specific language of the opened document; `err`
models the `.catch` branch. -/
inductive LoadOutcome where
  | ok (content : String) (languageOfDoc : Option String)
  | err (message : String)

/-- Model of `updateViewData` (extension.ts:335-395), with the asynchronous
first-leaf preload outcome passed explicitly.  The resulting state is the
one in place when the final `sendCurrentDataToWebview` of that code path
runs. -/
def updateViewData (s : ViewState) (references : List TreeNode)
    (languageForMonaco : String) (shouldUpdateMonacoWithFirstRef : Bool)
    (load : LoadOutcome) : ViewState :=
  let s1 := { s with currentReferences := references, currentLanguage := languageForMonaco }
  if shouldUpdateMonacoWithFirstRef then
    match findFirstLeaf references with
    | some firstLeaf =>
      match load with
      | .ok content docLang =>
        { s1 with currentMonacoFileUri := firstLeaf.uri,
                  currentMonacoContent := content,
                  currentMonacoRevealLine := firstLeaf.line + 1,
                  currentLanguage := docLang.getD languageForMonaco }
      | .err e =>
        { s1 with currentMonacoFileUri := firstLeaf.uri,
                  currentMonacoContent := "// Error pre-loading: " ++ e,
                  currentMonacoRevealLine := 1 }
    | none =>
      { s1 with currentMonacoContent := "// No specific reference to show context for.",
                currentMonacoRevealLine := 1,
                currentMonacoFileUri := "" }
  else s1

/-- State update together with the messages pushed at the end of the
`updateViewData` code path. -/
def updateViewDataRun (s : ViewState) (references : List TreeNode)
    (languageForMonaco : String) (shouldUpdateMonacoWithFirstRef : Bool)
    (load : LoadOutcome) (viewExists viewVisible : Bool) :
    ViewState × List Message :=
  let s' := updateViewData s references languageForMonaco shouldUpdateMonacoWithFirstRef load
  (s', sendCurrentDataToWebview s' viewExists viewVisible)

/-- Outcome of the reference-provider call in the `showReferencesInPanel`
handler: a thrown failure, or a possibly-`undefined` location list. -/
inductive SearchResult where
  | failure
  | success (locations : Option (List Location))

/-- Model of the `showReferencesInPanel` handler (extension.ts:95-150): a
missing or empty location list and the catch branch all reset the view with
an empty tree; otherwise the grouped tree is shown.  `codeLanguage` is the
language in effect at the `updateViewData` call. -/
def showReferencesOutcome (s : ViewState) (codeLanguage : String)
    (result : SearchResult) (env : Nat → DocEnv) (roots : List String)
    (load : LoadOutcome) : ViewState :=
  match result with
  | .failure => updateViewData s [] codeLanguage true load
  | .success none => updateViewData s [] codeLanguage true load
  | .success (some []) => updateViewData s [] codeLanguage true load
  | .success (some (loc :: locs)) =>
    updateViewData s (groupReferencesByDirectoryAndFile (loc :: locs) env roots)
      codeLanguage true load

/-- Model of `getFullFileContent` (extension.ts:481-490): the read outcome is
passed explicitly; a failed read yields the placeholder comment embedding the
file's base name and the error message, and the function never fails. -/
def getFullFileContent (fsPath : String) (readResult : Except String String) : String :=
  match readResult with
  | .ok text => text
  | .error message =>
    "// Error loading content for " ++ posixBasename fsPath ++ "\n// " ++ message

/-- Parameters of one `getContextMonaco` request (extension.ts:191-194). -/
structure ContextRequest where
  uri : String
  fsPath : String
  line : Nat

/-- Host outcomes used by the `getContextMonaco` handler. -/
structure ContextEnv where
  langLookup : Except String String
  readResult : Except String String
  themeIsDark : Bool

/-- Body of the `try` block of the `getContextMonaco` case
(extension.ts:195-222), as an `Except` computation: the language lookup has
its own `try`/`catch` with a fallback, and the content comes from the total
`getFullFileContent`. -/
def getContextMonacoTry (s : ViewState) (req : ContextRequest) (env : ContextEnv) :
    Except String (ViewState × Message) :=
  let monacoLanguage :=
    match env.langLookup with
    | .ok l => l
    | .error _ => s.currentLanguage
  let theme := if env.themeIsDark then "vs-dark" else "vs"
  let s1 := { s with currentMonacoTheme := theme, currentMonacoFileUri := req.uri }
  let fullFileContent := getFullFileContent req.fsPath env.readResult
  let s2 := { s1 with currentMonacoContent := fullFileContent,
                      currentMonacoRevealLine := req.line + 1 }
  Except.ok (s2, Message.updateMonacoContent s2.currentMonacoContent monacoLanguage
    s2.currentMonacoRevealLine s2.currentMonacoTheme s2.currentMonacoFileUri)

/-- Full `getContextMonaco` case including its `catch` branch
(extension.ts:223-236), which posts a plaintext error payload. -/
def getContextMonacoHandler (s : ViewState) (req : ContextRequest) (env : ContextEnv) :
    ViewState × List Message :=
  match getContextMonacoTry s req env with
  | .ok (s', m) => (s', [m])
  | .error e =>
    let theme := if env.themeIsDark then "vs-dark" else "vs"
    let errContent := "// Error loading content for " ++ posixBasename req.fsPath ++ "\n// " ++ e
    let s1 := { s with currentMonacoTheme := theme, currentMonacoFileUri := req.uri,
                       currentMonacoContent := errContent, currentMonacoRevealLine := 1 }
    (s1, [Message.updateMonacoContent s1.currentMonacoContent "plaintext"
      s1.currentMonacoRevealLine s1.currentMonacoTheme s1.currentMonacoFileUri])

/-- Messages actually delivered by the `getContextMonaco` case: both of its
posts go through `this._view?.webview.postMessage` (extension.ts:213, 226),
so they are guarded only by the view's existence — the view's visibility is
not consulted on this path. -/
def getContextMonacoPosts (s : ViewState) (req : ContextRequest) (env : ContextEnv)
    (viewExists : Bool) (_viewVisible : Bool) : List Message :=
  if viewExists then (getContextMonacoHandler s req env).2 else []

/-- Model of the `onDidChangeActiveColorTheme` listener
(extension.ts:295-308): only when the view exists and is visible and the
computed theme differs is the theme stored and a theme-only message posted. -/
def onDidChangeActiveColorTheme (s : ViewState) (viewExists viewVisible : Bool)
    (kindIsDark : Bool) : ViewState × List Message :=
  if viewExists && viewVisible then
    let newTheme := if kindIsDark then "vs-dark" else "vs"
    if s.currentMonacoTheme != newTheme then
      ({ s with currentMonacoTheme := newTheme }, [Message.updateMonacoTheme newTheme])
    else (s, [])
  else (s, [])

/-- State of the selection/preview race: the controller fields touched by the
`getContextMonaco` case plus the webview's displayed preview (content and
labelled file uri of the last `updateMonacoContent` it processed). -/
structure RaceState where
  controllerFileUri : String
  controllerContent : String
  displayedContent : String
  displayedFileUri : String
  deriving DecidableEq

/-- Events of the race model.  `request uri` is the synchronous prefix of the
`getContextMonaco` handler up to the content read (it stores the requested
uri in `_currentMonacoFileUri`, extension.ts:206).  `resolve uri content` is
the continuation after the read for `uri` resolves: the content is stored
and posted unconditionally — the code performs no staleness check — paired
with the controller's current `_currentMonacoFileUri`
(extension.ts:209-222). -/
inductive RaceEvent where
  | request (uri : String)
  | resolve (uri : String) (content : String)

def raceStep (s : RaceState) : RaceEvent → RaceState
  | .request uri => { s with controllerFileUri := uri }
  | .resolve _ content =>
    { s with controllerContent := content,
             displayedContent := content,
             displayedFileUri := s.controllerFileUri }

def raceRun (s : RaceState) (events : List RaceEvent) : RaceState :=
  events.foldl raceStep s

/-! Concrete fixtures used by counterexamples and witnesses. -/

def scenarioLocA4 : Location :=
  { uriStr := "file:///proj/a.ts", fsPath := "/proj/a.ts", line := 4, character := 0 }

def scenarioLocA1 : Location :=
  { uriStr := "file:///proj/a.ts", fsPath := "/proj/a.ts", line := 1, character := 2 }

def scenarioLocC0 : Location :=
  { uriStr := "file:///proj/b/c.ts", fsPath := "/proj/b/c.ts", line := 0, character := 0 }

/-- Host outcomes with successful reads and no symbol data. -/
def scenarioEnv : Nat → DocEnv :=
  fun _ => { lineText := Except.ok "  x + 1  ", symbols := Except.ok none }

/-- C1, counterexample: on the spec's own scenario (locations in `a.ts` at
lines 4 and 1 and in `b/c.ts` at line 0, project root `/proj`, no symbol
data) the top level of the built tree is `[DirectoryNode(b), FileNode(a.ts)]`
— the directory is sorted before the file by the type comparison at
extension.ts:670-671 even though `a.ts` sorts lexicographically before `b`,
refuting the claimed purely lexicographic order `[FileNode(a.ts),
DirectoryNode(b)]`. -/
theorem buildTree_scenario_directory_before_file :
    (groupReferencesByDirectoryAndFile [scenarioLocA4, scenarioLocA1, scenarioLocC0]
        scenarioEnv ["/proj"]).map (fun n => (typeRank n, displayName n)) =
      [(0, "b"), (1, "a.ts")] ∧
    natLexLe (strKey "a.ts") (strKey "b") = true := by
  constructor
  · decide
  · decide

/-- C1 (amended): the final top-level ordering of `buildTree` sorts
directories before files, and lexicographically by display name within each
type (the comparator key is `typeRank` followed by the name); on the spec's
scenario the result is `[DirectoryNode(b, [FileNode(c.ts, [leaf@0])]),
FileNode(a.ts, [leaf@1, leaf@4])]`. -/
theorem buildTree_top_level_type_then_name :
    (∀ (roots : List String) (leaves : List ReferenceLeaf),
      (buildTree roots leaves).Pairwise (fun a b => natLexLe (topKey a) (topKey b) = true)) ∧
    groupReferencesByDirectoryAndFile [scenarioLocA4, scenarioLocA1, scenarioLocC0]
        scenarioEnv ["/proj"] =
      [TreeNode.directory "b" "/proj/b"
        [FileNode.mk "c.ts" "/proj/b/c.ts" [FileChild.leaf (enrichOne scenarioLocC0 (scenarioEnv 2))]],
       TreeNode.file (FileNode.mk "a.ts" "/proj/a.ts"
         [FileChild.leaf (enrichOne scenarioLocA1 (scenarioEnv 1)),
          FileChild.leaf (enrichOne scenarioLocA4 (scenarioEnv 0))])] := by
  constructor
  · intro roots leaves
    simp only [buildTree]
    exact (sortByKey_sorted topKey _).filter _
  · decide

/-- C2: the `getContextMonaco` handler applies a resolving content load
unconditionally — there is no check that the requested file identifier still
matches the most recently requested one.  With requests for `a.ts` then
`b.ts` and the reads resolving out of order, the preview ends showing the
content of `a.ts` (labelled with the uri of `b.ts`), not the content of
`b.ts` as the claim requires. -/
theorem getContextMonaco_race_stale_load_applied :
    raceRun (RaceState.mk "" "" "" "")
      [RaceEvent.request "file:///a.ts", RaceEvent.request "file:///b.ts",
       RaceEvent.resolve "file:///b.ts" "contentB",
       RaceEvent.resolve "file:///a.ts" "contentA"] =
      RaceState.mk "file:///b.ts" "contentA" "contentA" "file:///b.ts" ∧
    ("contentA" : String) ≠ "contentB" := by
  constructor
  · rfl
  · decide

/-- C6, counterexample: when the document read succeeds (line text
`"  x + 1  "`) but the symbol-outline request throws, the shared
`try`/`catch` of the enrichment loop (extension.ts:532-549) overwrites the
already-extracted preview text with the placeholder, so `previewText` is
`"[Error loading preview]"` and not the trimmed line `"x + 1"` the claim
requires. -/
theorem enrichOne_symbol_failure_clobbers_preview :
    (enrichOne scenarioLocA4
        { lineText := Except.ok "  x + 1  ",
          symbols := Except.error "symbol provider failed" }).previewText =
      "[Error loading preview]" ∧
    jsTrim "  x + 1  " = "x + 1" ∧
    ("[Error loading preview]" : String) ≠ "x + 1" := by
  refine ⟨rfl, by decide, by decide⟩

/-- C6 (amended): a document-read failure produces exactly the placeholder
`"[Error loading preview]"` with no enclosing symbol; a symbol-request
failure is caught and never aborts enrichment and leaves the enclosing
symbol absent, but — because it shares the read's `try`/`catch` — it also
replaces the already-extracted preview text with the same placeholder; when
both succeed the preview is the trimmed line text; and enrichment always
yields one leaf per location. -/
theorem enrichOne_error_handling :
    (∀ (loc : Location) (sym : Except String (Option (List DocumentSymbol))) (e : String),
      (enrichOne loc { lineText := Except.error e, symbols := sym }).previewText =
        "[Error loading preview]" ∧
      (enrichOne loc { lineText := Except.error e, symbols := sym }).enclosingSymbol = none) ∧
    (∀ (loc : Location) (txt e : String),
      (enrichOne loc { lineText := Except.ok txt, symbols := Except.error e }).previewText =
        "[Error loading preview]" ∧
      (enrichOne loc { lineText := Except.ok txt, symbols := Except.error e }).enclosingSymbol =
        none) ∧
    (∀ (loc : Location) (txt : String) (osyms : Option (List DocumentSymbol)),
      (enrichOne loc { lineText := Except.ok txt, symbols := Except.ok osyms }).previewText =
        jsTrim txt) ∧
    (∀ (locations : List Location) (env : Nat → DocEnv),
      (enrichAll locations env).length = locations.length) := by
  refine ⟨fun loc sym e => ⟨rfl, rfl⟩, fun loc txt e => ⟨rfl, rfl⟩, fun loc txt osyms => ?_,
    fun locations env => ?_⟩
  · cases osyms with
    | none => rfl
    | some syms => rfl
  · simp [enrichAll]

/-- C7: a failed search, an `undefined` result and an empty result all reset
the view state identically: the tree becomes empty, the preview content
becomes the fixed no-reference message (any previously loaded content and
file uri are discarded), and the reveal line returns to 1. -/
theorem showReferences_zero_or_failure_empty_state :
    ∀ (s : ViewState) (lang : String) (env : Nat → DocEnv) (roots : List String)
      (load : LoadOutcome),
      showReferencesOutcome s lang SearchResult.failure env roots load =
        { s with currentReferences := [], currentLanguage := lang,
                 currentMonacoContent := "// No specific reference to show context for.",
                 currentMonacoRevealLine := 1, currentMonacoFileUri := "" } ∧
      showReferencesOutcome s lang (SearchResult.success none) env roots load =
        { s with currentReferences := [], currentLanguage := lang,
                 currentMonacoContent := "// No specific reference to show context for.",
                 currentMonacoRevealLine := 1, currentMonacoFileUri := "" } ∧
      showReferencesOutcome s lang (SearchResult.success (some [])) env roots load =
        { s with currentReferences := [], currentLanguage := lang,
                 currentMonacoContent := "// No specific reference to show context for.",
                 currentMonacoRevealLine := 1, currentMonacoFileUri := "" } := by
  intro s lang env roots load
  refine ⟨rfl, rfl, rfl⟩

/-- C9, counterexample: a view-state mutation performed while the view is
not visible pushes no message at all — the mutation happens (the state
changes) but `sendCurrentDataToWebview` is suppressed, refuting the claim
that every mutation results in a pushed content update. -/
theorem updateViewData_invisible_push_suppressed :
    (updateViewDataRun initialViewState [] "typescript" true (LoadOutcome.ok "c" none)
      true false).2 = [] ∧
    (updateViewDataRun initialViewState [] "typescript" true (LoadOutcome.ok "c" none)
      true false).1 ≠ initialViewState := by
  constructor
  · rfl
  · decide

/-- C9 (amended): view-state mutations reach the webview by two paths.
Mutations through `updateViewData` push, via `sendCurrentDataToWebview`, the
full tree and — unless the preview content is still the initial placeholder
while the tree is non-empty — the full preview content, and only when the
view exists and is visible; when the view is missing or invisible these
pushes are suppressed entirely.  Mutations by the `getContextMonaco` handler
post exactly one full preview update guarded only by the view's existence,
even when the view is not visible.  A theme change posts exactly one
theme-only message carrying the new theme and changes nothing but the stored
theme, precisely when the view exists and is visible and the computed theme
differs from the stored one; when the theme is unchanged, or the view is
missing or invisible, it posts nothing and leaves the state unchanged. -/
theorem sendCurrentData_visibility_and_theme :
    (∀ s : ViewState, sendCurrentDataToWebview s true true =
      Message.updateTreeData s.currentReferences ::
        (if s.currentMonacoContent != defaultMonacoContent || s.currentReferences.isEmpty then
          [Message.updateMonacoContent s.currentMonacoContent s.currentLanguage
            s.currentMonacoRevealLine s.currentMonacoTheme s.currentMonacoFileUri]
        else [])) ∧
    (∀ (s : ViewState) (v : Bool),
      sendCurrentDataToWebview s false v = [] ∧ sendCurrentDataToWebview s v false = []) ∧
    (∀ (s : ViewState) (req : ContextRequest) (env : ContextEnv) (v : Bool),
      (∃ m, getContextMonacoPosts s req env true v = [m]) ∧
      getContextMonacoPosts s req env false v = []) ∧
    (∀ (s : ViewState) (k : Bool),
      s.currentMonacoTheme ≠ (if k = true then "vs-dark" else "vs") →
      onDidChangeActiveColorTheme s true true k =
        ({ s with currentMonacoTheme := (if k = true then "vs-dark" else "vs") },
         [Message.updateMonacoTheme (if k = true then "vs-dark" else "vs")])) ∧
    (∀ (s : ViewState) (k : Bool),
      s.currentMonacoTheme = (if k = true then "vs-dark" else "vs") →
      onDidChangeActiveColorTheme s true true k = (s, [])) ∧
    (∀ (s : ViewState) (k : Bool),
      onDidChangeActiveColorTheme s false true k = (s, []) ∧
      onDidChangeActiveColorTheme s true false k = (s, [])) := by
  refine ⟨fun s => rfl, fun s v => ⟨rfl, by cases v <;> rfl⟩,
    fun s req env v => ⟨⟨_, rfl⟩, rfl⟩, fun s k h => ?_, fun s k h => ?_, fun s k => ⟨rfl, rfl⟩⟩
  · simp only [onDidChangeActiveColorTheme]
    rw [if_pos (show (true && true) = true from rfl),
      if_pos (bne_iff_ne.2 h)]
  · simp only [onDidChangeActiveColorTheme]
    rw [if_pos (show (true && true) = true from rfl),
      if_neg (by simp [h])]

theorem sendCurrentData_visibility_and_theme_witness :
    initialViewState.currentMonacoTheme ≠ "vs-dark" ∧
    onDidChangeActiveColorTheme initialViewState true true true =
      ({ initialViewState with currentMonacoTheme := "vs-dark" },
       [Message.updateMonacoTheme "vs-dark"]) ∧
    initialViewState.currentMonacoTheme = "vs" ∧
    onDidChangeActiveColorTheme initialViewState true true false =
      (initialViewState, []) := by
  refine ⟨by decide, ?_, by decide, ?_⟩
  · exact sendCurrentData_visibility_and_theme.2.2.2.1 initialViewState true (by decide)
  · exact sendCurrentData_visibility_and_theme.2.2.2.2.1 initialViewState false (by decide)

/-- C10: `getFullFileContent` is total: a successful read yields the decoded
text and a failed read yields the placeholder comment embedding the file's
base name and the error message; consequently the `try` body of the
`getContextMonaco` case always succeeds, so its `catch` branch (the
plaintext error payload) is unreachable. -/
theorem getFullFileContent_total_catch_dead :
    (∀ (p t : String), getFullFileContent p (Except.ok t) = t) ∧
    (∀ (p m : String), getFullFileContent p (Except.error m) =
      "// Error loading content for " ++ posixBasename p ++ "\n// " ++ m) ∧
    (∀ (s : ViewState) (req : ContextRequest) (env : ContextEnv),
      ∃ s' msg, getContextMonacoTry s req env = Except.ok (s', msg) ∧
        getContextMonacoHandler s req env = (s', [msg])) := by
  refine ⟨fun p t => rfl, fun p m => rfl, fun s req env => ⟨_, _, rfl, rfl⟩⟩

def FileChild.isGroup : FileChild → Bool
  | .group _ _ => true
  | .leaf _ => false

def FileChild.groupName : FileChild → Option String
  | .group nm _ => some nm
  | .leaf _ => none

def FileChild.leafRef : FileChild → Option ReferenceLeaf
  | .group _ _ => none
  | .leaf r => some r

theorem natLexLe_single (x y : Nat) : natLexLe [x] [y] = true ↔ x ≤ y := by
  simp only [natLexLe]
  split_ifs with h1 h2 <;> simp <;> omega

theorem pairwise_line_of_sorted (l : List ReferenceLeaf) :
    (sortByKey (fun x => [x.line]) l).Pairwise (fun a b => a.line ≤ b.line) :=
  (sortByKey_sorted (fun x => [x.line]) l).imp (fun h => (natLexLe_single _ _).1 h)

theorem sortByKey_line_filter (l : List ReferenceLeaf) (n : Nat) :
    (sortByKey (fun x => [x.line]) l).filter (fun r => decide (r.line = n)) =
      l.filter (fun r => decide (r.line = n)) := by
  have h1 : ∀ (m : List ReferenceLeaf),
      m.filter (fun r => decide (r.line = n)) =
        m.filter (fun r => decide ([r.line] = [n])) := by
    intro m
    refine List.filter_congr ?_
    intro x _
    simp
  rw [h1, h1]
  exact sortByKey_filter_key (fun x => [x.line]) l [n]

theorem mem_buildFileChildren_group {leaves : List ReferenceLeaf} {nm : String}
    {refs : List ReferenceLeaf} (h : FileChild.group nm refs ∈ buildFileChildren leaves) :
    refs = sortByKey (fun x => [x.line])
      (leaves.filter (fun x => decide (x.enclosingSymbol = some nm))) := by
  simp only [buildFileChildren, List.mem_append, List.mem_map] at h
  rcases h with ⟨nm', _, heq⟩ | ⟨r, _, heq⟩
  · rcases FileChild.group.injEq .. ▸ heq with ⟨h1, h2⟩
    subst h1
    exact h2.symm
  · simp at heq

/-- C4: for every file bucket and every insertion order, the `FileNode`
children built by the source consist of all function groups followed by all
loose leaves; group names are sorted lexicographically; each group's members
are sorted ascending by line with ties in original input order (the
members of a fixed line are exactly the input's leaves of that symbol and
line, in input order); and the loose leaves are sorted ascending by line. -/
theorem buildFileChildren_spec (leaves : List ReferenceLeaf) :
    (buildFileChildren leaves =
      (buildFileChildren leaves).filter FileChild.isGroup ++
        (buildFileChildren leaves).filter (fun c => !c.isGroup)) ∧
    ((buildFileChildren leaves).filterMap FileChild.groupName).Pairwise
      (fun a b => natLexLe (strKey a) (strKey b) = true) ∧
    (∀ (nm : String) (refs : List ReferenceLeaf),
      FileChild.group nm refs ∈ buildFileChildren leaves →
      refs.Pairwise (fun a b => a.line ≤ b.line) ∧
      ∀ n : Nat, refs.filter (fun r => decide (r.line = n)) =
        leaves.filter (fun r =>
          decide (r.enclosingSymbol = some nm) && decide (r.line = n))) ∧
    ((buildFileChildren leaves).filterMap FileChild.leafRef).Pairwise
      (fun a b => a.line ≤ b.line) := by
  refine ⟨?_, ?_, ?_, ?_⟩
  · simp only [buildFileChildren, List.filter_append, List.filter_map]
    have hg : (FileChild.isGroup ∘ fun nm => FileChild.group nm
        (sortByKey (fun x => [x.line])
          (leaves.filter (fun x => decide (x.enclosingSymbol = some nm))))) =
        fun _ => true := by
      funext nm
      rfl
    have hl : (FileChild.isGroup ∘ FileChild.leaf) = fun _ => false := by
      funext r
      rfl
    have hg2 : ((fun c => !FileChild.isGroup c) ∘ fun nm => FileChild.group nm
        (sortByKey (fun x => [x.line])
          (leaves.filter (fun x => decide (x.enclosingSymbol = some nm))))) =
        fun _ => false := by
      funext nm
      rfl
    have hl2 : ((fun c => !FileChild.isGroup c) ∘ FileChild.leaf) = fun _ => true := by
      funext r
      rfl
    rw [hg, hl, hg2, hl2, List.filter_true, List.filter_false, List.filter_true,
      List.filter_false]
    simp
  · simp only [buildFileChildren, List.filterMap_append, List.filterMap_map]
    have hg : (FileChild.groupName ∘ fun nm => FileChild.group nm
        (sortByKey (fun x => [x.line])
          (leaves.filter (fun x => decide (x.enclosingSymbol = some nm))))) =
        fun nm => some nm := by
      funext nm
      rfl
    have hl : (FileChild.groupName ∘ FileChild.leaf) = fun _ => none := by
      funext r
      rfl
    rw [hg, hl]
    have h1 : List.filterMap (fun nm => some nm)
        (sortByKey strKey (mapKeys (fun s => s)
          ((leaves.filter fun x => x.enclosingSymbol.isSome).filterMap
            fun x => x.enclosingSymbol))) =
        sortByKey strKey (mapKeys (fun s => s)
          ((leaves.filter fun x => x.enclosingSymbol.isSome).filterMap
            fun x => x.enclosingSymbol)) := by
      simp
    have h2 : List.filterMap (fun (_ : ReferenceLeaf) => (none : Option String))
        (sortByKey (fun x => [x.line])
          (leaves.filter fun x => x.enclosingSymbol.isNone)) = [] := by
      simp
    rw [h1, h2, List.append_nil]
    exact sortByKey_sorted strKey _
  · intro nm refs h
    have heq := mem_buildFileChildren_group h
    subst heq
    refine ⟨pairwise_line_of_sorted _, ?_⟩
    intro n
    rw [sortByKey_line_filter, List.filter_filter]
    refine List.filter_congr ?_
    intro x _
    exact Bool.and_comm _ _
  · simp only [buildFileChildren, List.filterMap_append, List.filterMap_map]
    have hg : (FileChild.leafRef ∘ fun nm => FileChild.group nm
        (sortByKey (fun x => [x.line])
          (leaves.filter (fun x => decide (x.enclosingSymbol = some nm))))) =
        fun _ => none := by
      funext nm
      rfl
    have hl : (FileChild.leafRef ∘ FileChild.leaf) = fun r => some r := by
      funext r
      rfl
    rw [hg, hl]
    have h1 : List.filterMap (fun (_ : String) => (none : Option ReferenceLeaf))
        (sortByKey strKey (mapKeys (fun s => s)
          ((leaves.filter fun x => x.enclosingSymbol.isSome).filterMap
            fun x => x.enclosingSymbol))) = [] := by
      simp
    have h2 : List.filterMap (fun (r : ReferenceLeaf) => some r)
        (sortByKey (fun x => [x.line])
          (leaves.filter fun x => x.enclosingSymbol.isNone)) =
        sortByKey (fun x => [x.line]) (leaves.filter fun x => x.enclosingSymbol.isNone) := by
      simp
    rw [h1, h2, List.nil_append]
    exact pairwise_line_of_sorted _

def wLeafF4 : ReferenceLeaf :=
  { uri := "file:///proj/a.ts", fileName := "a.ts", fullPath := "/proj/a.ts",
    line := 4, character := 0, previewText := "x", enclosingSymbol := some "fn",
    originalLocation := scenarioLocA4 }

def wLeafF1 : ReferenceLeaf :=
  { uri := "file:///proj/a.ts", fileName := "a.ts", fullPath := "/proj/a.ts",
    line := 1, character := 2, previewText := "y", enclosingSymbol := some "fn",
    originalLocation := scenarioLocA1 }

def wLeafL2 : ReferenceLeaf :=
  { uri := "file:///proj/a.ts", fileName := "a.ts", fullPath := "/proj/a.ts",
    line := 2, character := 0, previewText := "z", enclosingSymbol := none,
    originalLocation := scenarioLocA1 }

theorem buildFileChildren_spec_witness :
    [wLeafF1, wLeafF4].Pairwise (fun a b => a.line ≤ b.line) ∧
    [wLeafF1, wLeafF4].filter (fun r => decide (r.line = 4)) =
      [wLeafF4, wLeafL2, wLeafF1].filter (fun r =>
        decide (r.enclosingSymbol = some "fn") && decide (r.line = 4)) := by
  have h := (buildFileChildren_spec [wLeafF4, wLeafL2, wLeafF1]).2.2.1 "fn"
    [wLeafF1, wLeafF4] (by decide)
  exact ⟨h.1, h.2 4⟩

/-- C5: on a well-nested symbol forest, `findEnclosingSymbol` returns `none`
exactly when no symbol of an accepted kind (Function, Method, Class,
Constructor) contains the position — `none` being an ordinary result, not an
error — and a returned symbol is of an accepted kind, contains the position,
belongs to the forest, and has no accepted-kind descendant containing the
position (children are searched before the symbol itself, so the innermost
accepted match wins). -/
theorem findEnclosingSymbol_spec (symbols : List DocumentSymbol) (position : Position)
    (hw : WellNested symbols) :
    (findEnclosingSymbol symbols position = none ↔
      ∀ s ∈ allSymbols symbols, isGroupingKind s.kind = true →
        rangeContainsB s.range position = false) ∧
    (∀ s, findEnclosingSymbol symbols position = some s →
      isGroupingKind s.kind = true ∧ rangeContainsB s.range position = true ∧
      s ∈ allSymbols symbols ∧
      ∀ d ∈ allSymbols s.children, isGroupingKind d.kind = true →
        rangeContainsB d.range position = false) :=
  findEnclosingSymbol_spec_aux position symbols hw

def wRangeOuter : Range :=
  { start := { line := 0, character := 0 }, end_ := { line := 10, character := 0 } }

def wRangeMiddle : Range :=
  { start := { line := 1, character := 0 }, end_ := { line := 9, character := 0 } }

def wRangeInner : Range :=
  { start := { line := 2, character := 0 }, end_ := { line := 8, character := 0 } }

def wInner : DocumentSymbol := DocumentSymbol.mk "inner" 5 wRangeInner []

/-- Forest with a Function symbol containing a Variable symbol containing a
Method symbol, all enclosing the probe position. -/
def wForest : List DocumentSymbol :=
  [DocumentSymbol.mk "outer" 11 wRangeOuter
    [DocumentSymbol.mk "middle" 13 wRangeMiddle [wInner]]]

def wPos : Position := { line := 3, character := 0 }

theorem findEnclosingSymbol_spec_witness :
    isGroupingKind wInner.kind = true ∧ rangeContainsB wInner.range wPos = true ∧
    wInner ∈ allSymbols wForest := by
  have hw : WellNested wForest := by
    simp only [WellNested, wForest, wInner, allSymbols_cons, allSymbols_nil]
    decide
  have hfind : findEnclosingSymbol wForest wPos = some wInner := by
    simp [findEnclosingSymbol, wForest, wInner, wRangeOuter, wRangeMiddle, wRangeInner,
      wPos, rangeContainsB, posLeB, isGroupingKind]
  have h := (findEnclosingSymbol_spec wForest wPos hw).2 wInner hfind
  exact ⟨h.1, h.2.1, h.2.2.1⟩

theorem flatMap_filter_of_empty {α β : Type} (p : α → Bool) (f : α → List β)
    (l : List α) (h : ∀ a ∈ l, p a = false → f a = []) :
    (l.filter p).flatMap f = l.flatMap f := by
  induction l with
  | nil => rfl
  | cons a t ih =>
    have iht := ih (fun x hx => h x (by simp [hx]))
    by_cases ha : p a = true
    · rw [List.filter_cons_of_pos ha, List.flatMap_cons, List.flatMap_cons, iht]
    · rw [List.filter_cons_of_neg ha, List.flatMap_cons,
        h a (by simp) (by simpa using ha), List.nil_append, iht]

theorem mem_sortByKey {α : Type} {f : α → List Nat} {l : List α} {z : α} :
    z ∈ sortByKey f l ↔ z ∈ l :=
  (sortByKey_perm f l).mem_iff

theorem encl_filter_eq (leaves : List ReferenceLeaf) (nm : String) :
    (leaves.filter (fun x => x.enclosingSymbol.isSome)).filter
        (fun a => decide (a.enclosingSymbol = some nm)) =
      leaves.filter (fun x => decide (x.enclosingSymbol = some nm)) := by
  rw [List.filter_filter]
  refine List.filter_congr ?_
  intro x _
  cases hx : x.enclosingSymbol with
  | none => simp [hx]
  | some s => simp [hx]

theorem mapKeys_encl_eq (l : List ReferenceLeaf)
    (h : ∀ x ∈ l, x.enclosingSymbol.isSome = true) :
    mapKeys (fun x => x.enclosingSymbol) l =
      (mapKeys (fun s => s) (l.filterMap (fun x => x.enclosingSymbol))).map some := by
  induction l with
  | nil => rfl
  | cons a t ih =>
    rcases Option.isSome_iff_exists.1 (h a (by simp)) with ⟨nm, hnm⟩
    have iht := ih (fun x hx => h x (by simp [hx]))
    simp only [mapKeys, hnm, List.filterMap_cons_some hnm]
    rw [iht, List.filter_map]
    congr 1
    refine congrArg _ ?_
    refine List.filter_congr ?_
    intro k _
    simp [Function.comp]

theorem flatMap_filterMap_ite {α β γ : Type} (c : α → Bool) (g : α → List β)
    (mk : α → γ) (fl : γ → List β) (hfl : ∀ a, fl (mk a) = g a)
    (hc : ∀ a, c a = true → g a = []) (keys : List α) :
    ((keys.filterMap (fun a => if c a then none else some (mk a))).flatMap fl) =
      keys.flatMap g := by
  induction keys with
  | nil => rfl
  | cons p t ih =>
    by_cases hp : c p = true
    · rw [@List.filterMap_cons_none _ _ (fun a => if c a then none else some (mk a)) p t
        (if_pos hp), List.flatMap_cons, ih, hc p hp, List.nil_append]
    · rw [@List.filterMap_cons_some _ _ (fun a => if c a then none else some (mk a)) p t
        (mk p) (if_neg hp), List.flatMap_cons, List.flatMap_cons, ih, hfl p]

/-- The leaves hanging under the children built for one file are a
permutation of the file's bucket. -/
theorem buildFileChildren_leaves_perm (leaves : List ReferenceLeaf) :
    ((buildFileChildren leaves).flatMap fileChildLeaves).Perm leaves := by
  simp only [buildFileChildren, List.flatMap_append, List.flatMap_map]
  have hgroupfun : (fun nm => fileChildLeaves (FileChild.group nm
      (sortByKey (fun x => [x.line])
        (leaves.filter (fun x => decide (x.enclosingSymbol = some nm)))))) =
      (fun nm => sortByKey (fun x => [x.line])
        (leaves.filter (fun x => decide (x.enclosingSymbol = some nm)))) := by
    funext nm
    rfl
  have hleaffun : (fun r => fileChildLeaves (FileChild.leaf r)) =
      (fun r : ReferenceLeaf => [r]) := by
    funext r
    rfl
  rw [hgroupfun, hleaffun, List.flatMap_singleton']
  have hA : ((sortByKey strKey (mapKeys (fun s => s)
      ((leaves.filter (fun x => x.enclosingSymbol.isSome)).filterMap
        (fun x => x.enclosingSymbol)))).flatMap
      (fun nm => sortByKey (fun x => [x.line])
        (leaves.filter (fun x => decide (x.enclosingSymbol = some nm))))).Perm
      (leaves.filter (fun x => x.enclosingSymbol.isSome)) := by
    have h1 : ∀ (names : List String), (names.flatMap
        (fun nm => sortByKey (fun x => [x.line])
          (leaves.filter (fun x => decide (x.enclosingSymbol = some nm))))).Perm
        (names.flatMap
          (fun nm => leaves.filter (fun x => decide (x.enclosingSymbol = some nm)))) :=
      fun names => List.Perm.flatMap_left names
        (fun nm _ => sortByKey_perm (fun x : ReferenceLeaf => [x.line]) _)
    refine ((h1 _).trans ?_)
    have h2 := List.Perm.flatMap_right
      (fun nm : String => leaves.filter (fun x => decide (x.enclosingSymbol = some nm)))
      (sortByKey_perm strKey (mapKeys (fun s => s)
        ((leaves.filter (fun x => x.enclosingSymbol.isSome)).filterMap
          (fun x => x.enclosingSymbol))))
    refine h2.trans ?_
    have h3 := mapKeys_flatMap_filter_perm (fun x => x.enclosingSymbol)
      (leaves.filter (fun x => x.enclosingSymbol.isSome))
    rw [mapKeys_encl_eq (leaves.filter (fun x => x.enclosingSymbol.isSome))
      (fun x hx => (List.mem_filter.1 hx).2)] at h3
    rw [List.flatMap_map] at h3
    have h4 : (fun nm => (leaves.filter (fun x => x.enclosingSymbol.isSome)).filter
        (fun a => decide (a.enclosingSymbol = some nm))) =
        (fun nm => leaves.filter (fun x => decide (x.enclosingSymbol = some nm))) := by
      funext nm
      exact encl_filter_eq leaves nm
    rw [h4] at h3
    exact h3
  have hB : (sortByKey (fun x => [x.line])
      (leaves.filter (fun x => x.enclosingSymbol.isNone))).Perm
      (leaves.filter (fun x => !x.enclosingSymbol.isSome)) := by
    refine (sortByKey_perm _ _).trans ?_
    have : (fun x : ReferenceLeaf => x.enclosingSymbol.isNone) =
        (fun x : ReferenceLeaf => !x.enclosingSymbol.isSome) := by
      funext x
      cases x.enclosingSymbol <;> rfl
    rw [this]
  exact (hA.append hB).trans
    (List.filter_append_perm (fun x => x.enclosingSymbol.isSome) leaves)

theorem mem_fileNodesOf {l : List ReferenceLeaf} {f : FileNode}
    (h : f ∈ fileNodesOf l) :
    f.children = buildFileChildren
        (l.filter (fun x => decide (x.fullPath = f.fullPath))) ∧
    f.fileName = posixBasename f.fullPath := by
  rcases List.mem_filterMap.1 h with ⟨p, _, hF⟩
  by_cases hc : (buildFileChildren (l.filter (fun x => decide (x.fullPath = p)))).isEmpty = true
  · simp only [hc, if_true] at hF
    cases hF
  · simp only [hc, if_false] at hF
    cases hF
    exact ⟨rfl, rfl⟩

theorem fileNode_leaves_fullPath {l : List ReferenceLeaf} {f : FileNode}
    (h : f ∈ fileNodesOf l) : ∀ r ∈ fileLeaves f, r.fullPath = f.fullPath := by
  intro r hr
  rcases mem_fileNodesOf h with ⟨hch, _⟩
  have hr2 : r ∈ (buildFileChildren
      (l.filter (fun x => decide (x.fullPath = f.fullPath)))).flatMap fileChildLeaves := by
    simpa [fileLeaves, hch] using hr
  have hr3 := (buildFileChildren_leaves_perm _).subset hr2
  simpa using (List.mem_filter.1 hr3).2

/-- The leaves hanging under all file nodes are a permutation of the input. -/
theorem fileNodesOf_leaves_perm (l : List ReferenceLeaf) :
    ((fileNodesOf l).flatMap fileLeaves).Perm l := by
  have heq := flatMap_filterMap_ite
    (fun p => (buildFileChildren (l.filter (fun x => decide (x.fullPath = p)))).isEmpty)
    (fun p => (buildFileChildren (l.filter (fun x => decide (x.fullPath = p)))).flatMap
      fileChildLeaves)
    (fun p => FileNode.mk (posixBasename p) p
      (buildFileChildren (l.filter (fun x => decide (x.fullPath = p)))))
    fileLeaves (fun p => rfl)
    (fun p hp => by
      show (buildFileChildren (l.filter (fun x => decide (x.fullPath = p)))).flatMap
        fileChildLeaves = []
      rw [List.isEmpty_iff.1 hp]
      rfl)
    (mapKeys (fun x => x.fullPath) l)
  have hdef : fileNodesOf l = (mapKeys (fun x => x.fullPath) l).filterMap (fun p =>
      if (buildFileChildren (l.filter (fun x => decide (x.fullPath = p)))).isEmpty then none
      else some (FileNode.mk (posixBasename p) p
        (buildFileChildren (l.filter (fun x => decide (x.fullPath = p)))))) := rfl
  rw [hdef, heq]
  refine (List.Perm.flatMap_left _ (fun p _ => buildFileChildren_leaves_perm _)).trans ?_
  exact mapKeys_flatMap_filter_perm (fun x => x.fullPath) l

theorem nodeLeaves_empty_of_childless :
    ∀ n : TreeNode, nodeHasChildren n = false → nodeLeaves n = [] := by
  intro n hn
  cases n with
  | file f =>
    simp only [nodeHasChildren, Bool.not_eq_false'] at hn
    simp [nodeLeaves, fileLeaves, List.isEmpty_iff.1 hn]
  | directory dn dp cs =>
    simp only [nodeHasChildren, Bool.not_eq_false'] at hn
    simp [nodeLeaves, List.isEmpty_iff.1 hn]

/-- Leaf preservation of the full tree construction. -/
theorem buildTree_leaves_perm (roots' : List String) (l : List ReferenceLeaf) :
    (treeLeaves (buildTree roots' l)).Perm l := by
  simp only [buildTree, treeLeaves]
  rw [flatMap_filter_of_empty _ _ _ (fun n _ hn => nodeLeaves_empty_of_childless n hn)]
  refine (List.Perm.flatMap_right nodeLeaves (sortByKey_perm topKey _)).trans ?_
  rw [List.flatMap_append, List.flatMap_map, List.flatMap_map]
  have hfile : (fun f => nodeLeaves (TreeNode.file f)) = fileLeaves := by
    funext f
    rfl
  rw [hfile]
  have hroot : ((sortByKey (fun f => strKey f.fileName)
      (rootFileNodes (roots'.map replaceBackslashes) l)).flatMap fileLeaves).Perm
      ((rootFileNodes (roots'.map replaceBackslashes) l).flatMap fileLeaves) :=
    List.Perm.flatMap_right fileLeaves (sortByKey_perm _ _)
  have hdirfun : (fun d => nodeLeaves (TreeNode.directory (posixBasename d) d
      (sortByKey (fun f => strKey f.fileName)
        (dirFiles (roots'.map replaceBackslashes) l d)))) =
      (fun d => (sortByKey (fun f => strKey f.fileName)
        (dirFiles (roots'.map replaceBackslashes) l d)).flatMap fileLeaves) := by
    funext d
    rfl
  rw [hdirfun]
  have hdirs : ((sortByKey strKey (dirKeysOf (roots'.map replaceBackslashes) l)).flatMap
      (fun d => (sortByKey (fun f => strKey f.fileName)
        (dirFiles (roots'.map replaceBackslashes) l d)).flatMap fileLeaves)).Perm
      ((nonRootFileNodes (roots'.map replaceBackslashes) l).flatMap fileLeaves) := by
    refine (List.Perm.flatMap_left _
      (fun d _ => List.Perm.flatMap_right fileLeaves (sortByKey_perm _ _))).trans ?_
    refine (List.Perm.flatMap_right _ (sortByKey_perm strKey _)).trans ?_
    have h3 := mapKeys_flatMap_filter_perm (fun f : FileNode => dirPathOf f.fullPath)
      (nonRootFileNodes (roots'.map replaceBackslashes) l)
    have h4 := List.Perm.flatMap_right fileLeaves h3
    rw [List.flatMap_assoc] at h4
    exact h4
  refine (hroot.append hdirs).trans ?_
  rw [← List.flatMap_append]
  refine (List.Perm.flatMap_right fileLeaves ?_).trans (fileNodesOf_leaves_perm l)
  exact List.filter_append_perm _ _

theorem mem_buildTree {roots' : List String} {l : List ReferenceLeaf} {n : TreeNode}
    (h : n ∈ buildTree roots' l) :
    (∃ f, n = TreeNode.file f ∧ f ∈ fileNodesOf l) ∨
    (∃ d, n = TreeNode.directory (posixBasename d) d
        (sortByKey (fun f => strKey f.fileName)
          (dirFiles (roots'.map replaceBackslashes) l d)) ∧
      d ∈ dirKeysOf (roots'.map replaceBackslashes) l) := by
  simp only [buildTree] at h
  have h1 := (List.mem_filter.1 h).1
  have h2 := mem_sortByKey.1 h1
  rcases List.mem_append.1 h2 with h3 | h3
  · rcases List.mem_map.1 h3 with ⟨f, hf, rfl⟩
    left
    refine ⟨f, rfl, ?_⟩
    have hf2 := mem_sortByKey.1 hf
    exact (List.mem_filter.1 hf2).1
  · rcases List.mem_map.1 h3 with ⟨d, hd, rfl⟩
    right
    exact ⟨d, rfl, mem_sortByKey.1 hd⟩

/-- C3: enrichment produces exactly one leaf per input location (no drop, no
deduplication), the multiset of leaves reachable in the built tree is
exactly the multiset of enriched leaves, and every leaf sits under a
`FileNode` whose `fullPath` equals the leaf's own `fullPath`, with nested
`FileNode`s sitting under the `DirectoryNode` of their normalized directory
path. -/
theorem groupReferences_leaf_preservation (locations : List Location)
    (env : Nat → DocEnv) (roots' : List String) :
    (enrichAll locations env).length = locations.length ∧
    (treeLeaves (groupReferencesByDirectoryAndFile locations env roots')).Perm
      (enrichAll locations env) ∧
    ∀ n ∈ groupReferencesByDirectoryAndFile locations env roots',
      (∀ f, n = TreeNode.file f → ∀ r ∈ fileLeaves f, r.fullPath = f.fullPath) ∧
      (∀ dn dp cs, n = TreeNode.directory dn dp cs →
        ∀ fn ∈ cs, dirPathOf fn.fullPath = dp ∧
          ∀ r ∈ fileLeaves fn, r.fullPath = fn.fullPath) := by
  refine ⟨by simp [enrichAll], buildTree_leaves_perm _ _, ?_⟩
  intro n hn
  rcases mem_buildTree hn with ⟨f, rfl, hf⟩ | ⟨d, rfl, hd⟩
  · constructor
    · intro f' heq r hr
      have hff : f = f' := by injection heq
      subst hff
      exact fileNode_leaves_fullPath hf r hr
    · intro dn dp cs heq
      simp at heq
  · constructor
    · intro f' heq
      simp at heq
    · intro dn dp cs heq fn hfn
      injection heq with h1 h2 h3
      subst h2
      subst h3
      have hfn2 := mem_sortByKey.1 hfn
      rcases List.mem_filter.1 hfn2 with ⟨hfn3, hpred⟩
      refine ⟨of_decide_eq_true hpred, ?_⟩
      have hfn4 : fn ∈ fileNodesOf (enrichAll locations env) :=
        (List.mem_filter.1 hfn3).1
      exact fileNode_leaves_fullPath hfn4

theorem groupReferences_leaf_preservation_witness :
    (treeLeaves (groupReferencesByDirectoryAndFile
        [scenarioLocA4, scenarioLocA1, scenarioLocC0] scenarioEnv ["/proj"])).Perm
      (enrichAll [scenarioLocA4, scenarioLocA1, scenarioLocC0] scenarioEnv) ∧
    dirPathOf "/proj/b/c.ts" = "/proj/b" := by
  have h := groupReferences_leaf_preservation
    [scenarioLocA4, scenarioLocA1, scenarioLocC0] scenarioEnv ["/proj"]
  refine ⟨h.2.1, ?_⟩
  have h3 := h.2.2 (TreeNode.directory "b" "/proj/b"
    [FileNode.mk "c.ts" "/proj/b/c.ts"
      [FileChild.leaf (enrichOne scenarioLocC0 (scenarioEnv 2))]]) (by decide)
  exact (h3.2 "b" "/proj/b"
    [FileNode.mk "c.ts" "/proj/b/c.ts"
      [FileChild.leaf (enrichOne scenarioLocC0 (scenarioEnv 2))]] rfl
    (FileNode.mk "c.ts" "/proj/b/c.ts"
      [FileChild.leaf (enrichOne scenarioLocC0 (scenarioEnv 2))]) (by decide)).1

theorem sortByKey_eq_of_perm {α : Type} (f : α → List Nat) {l l' : List α}
    (hp : l.Perm l') (hinj : ∀ a ∈ l, ∀ b ∈ l, f a = f b → a = b) :
    sortByKey f l = sortByKey f l' :=
  sorted_perm_key_inj_eq f _ _
    ((sortByKey_perm f l).trans (hp.trans (sortByKey_perm f l').symm))
    (sortByKey_sorted f l) (sortByKey_sorted f l')
    (fun a ha b hb hf => hinj a (mem_sortByKey.1 ha) b (mem_sortByKey.1 hb) hf)

/-- The children built for one file are a function of the bucket's multiset,
provided no two distinct bucket leaves share both enclosing symbol and
line. -/
theorem buildFileChildren_perm_eq {l l' : List ReferenceLeaf} (hp : l.Perm l')
    (h1 : ∀ a ∈ l, ∀ b ∈ l, a.enclosingSymbol = b.enclosingSymbol →
      a.line = b.line → a = b) :
    buildFileChildren l = buildFileChildren l' := by
  have hgrouped : ((l.filter (fun x => x.enclosingSymbol.isSome)).filterMap
      (fun x => x.enclosingSymbol)).Perm
      ((l'.filter (fun x => x.enclosingSymbol.isSome)).filterMap
        (fun x => x.enclosingSymbol)) :=
    (hp.filter _).filterMap _
  have hnames : sortByKey strKey (mapKeys (fun s => s)
      ((l.filter (fun x => x.enclosingSymbol.isSome)).filterMap
        (fun x => x.enclosingSymbol))) =
      sortByKey strKey (mapKeys (fun s => s)
      ((l'.filter (fun x => x.enclosingSymbol.isSome)).filterMap
        (fun x => x.enclosingSymbol))) :=
    sortByKey_eq_of_perm strKey (mapKeys_perm _ hgrouped)
      (fun a _ b _ h => strKey_inj h)
  have hbucket : ∀ nm : String, sortByKey (fun x => [x.line])
      (l.filter (fun x => decide (x.enclosingSymbol = some nm))) =
      sortByKey (fun x => [x.line])
        (l'.filter (fun x => decide (x.enclosingSymbol = some nm))) := by
    intro nm
    refine sortByKey_eq_of_perm _ (hp.filter _) ?_
    intro a ha b hb hf
    have ha2 := List.mem_filter.1 ha
    have hb2 := List.mem_filter.1 hb
    refine h1 a ha2.1 b hb2.1 ?_ (by simpa using hf)
    rw [of_decide_eq_true ha2.2, of_decide_eq_true hb2.2]
  have hloose : sortByKey (fun x => [x.line])
      (l.filter (fun x => x.enclosingSymbol.isNone)) =
      sortByKey (fun x => [x.line]) (l'.filter (fun x => x.enclosingSymbol.isNone)) := by
    refine sortByKey_eq_of_perm _ (hp.filter _) ?_
    intro a ha b hb hf
    have ha2 := List.mem_filter.1 ha
    have hb2 := List.mem_filter.1 hb
    refine h1 a ha2.1 b hb2.1 ?_ (by simpa using hf)
    rw [Option.isNone_iff_eq_none.1 ha2.2, Option.isNone_iff_eq_none.1 hb2.2]
  simp only [buildFileChildren]
  rw [hnames, hloose]
  congr 1
  refine List.map_congr_left ?_
  intro nm _
  rw [hbucket nm]

/-- The file nodes are, up to permutation, a function of the leaf multiset
(under the same per-file key-distinctness hypothesis). -/
theorem fileNodesOf_perm {l l' : List ReferenceLeaf} (hp : l.Perm l')
    (h1 : ∀ a ∈ l, ∀ b ∈ l, a.fullPath = b.fullPath →
      a.enclosingSymbol = b.enclosingSymbol → a.line = b.line → a = b) :
    (fileNodesOf l).Perm (fileNodesOf l') := by
  have hbuck : ∀ p : String,
      buildFileChildren (l.filter (fun x => decide (x.fullPath = p))) =
      buildFileChildren (l'.filter (fun x => decide (x.fullPath = p))) := by
    intro p
    refine buildFileChildren_perm_eq (hp.filter _) ?_
    intro a ha b hb
    have ha2 := List.mem_filter.1 ha
    have hb2 := List.mem_filter.1 hb
    refine h1 a ha2.1 b hb2.1 ?_
    rw [of_decide_eq_true ha2.2, of_decide_eq_true hb2.2]
  have hfun : (fun p =>
      if (buildFileChildren (l.filter (fun x => decide (x.fullPath = p)))).isEmpty then none
      else some (FileNode.mk (posixBasename p) p
        (buildFileChildren (l.filter (fun x => decide (x.fullPath = p)))))) =
      (fun p =>
      if (buildFileChildren (l'.filter (fun x => decide (x.fullPath = p)))).isEmpty then none
      else some (FileNode.mk (posixBasename p) p
        (buildFileChildren (l'.filter (fun x => decide (x.fullPath = p)))))) := by
    funext p
    rw [hbuck p]
  have e1 : fileNodesOf l = (mapKeys (fun x => x.fullPath) l).filterMap (fun p =>
      if (buildFileChildren (l'.filter (fun x => decide (x.fullPath = p)))).isEmpty then none
      else some (FileNode.mk (posixBasename p) p
        (buildFileChildren (l'.filter (fun x => decide (x.fullPath = p)))))) := by
    show (mapKeys (fun x => x.fullPath) l).filterMap (fun p =>
      if (buildFileChildren (l.filter (fun x => decide (x.fullPath = p)))).isEmpty then none
      else some (FileNode.mk (posixBasename p) p
        (buildFileChildren (l.filter (fun x => decide (x.fullPath = p)))))) = _
    rw [hfun]
  rw [e1]
  exact List.Perm.filterMap _ (mapKeys_perm _ hp)

/-- C8 (amended): `buildTree` is order-independent of its input — permuting
the enriched leaf list yields an identical tree — provided the sort keys
that the source breaks ties on by input order are distinct: no two distinct
leaves of the same file share enclosing symbol and line, no two distinct
root-classified files share a file name, and no two distinct files of the
same directory bucket share a file name. -/
theorem buildTree_perm_invariant (roots' : List String) (l l' : List ReferenceLeaf)
    (hp : l.Perm l')
    (h1 : ∀ a ∈ l, ∀ b ∈ l, a.fullPath = b.fullPath →
      a.enclosingSymbol = b.enclosingSymbol → a.line = b.line → a = b)
    (h2 : ∀ f ∈ rootFileNodes (roots'.map replaceBackslashes) l,
      ∀ g ∈ rootFileNodes (roots'.map replaceBackslashes) l,
      f.fileName = g.fileName → f = g)
    (h3 : ∀ d ∈ dirKeysOf (roots'.map replaceBackslashes) l,
      ∀ f ∈ dirFiles (roots'.map replaceBackslashes) l d,
      ∀ g ∈ dirFiles (roots'.map replaceBackslashes) l d,
      f.fileName = g.fileName → f = g) :
    buildTree roots' l = buildTree roots' l' := by
  have hfn : (fileNodesOf l).Perm (fileNodesOf l') := fileNodesOf_perm hp h1
  have hroot : (rootFileNodes (roots'.map replaceBackslashes) l).Perm
      (rootFileNodes (roots'.map replaceBackslashes) l') := hfn.filter _
  have hrootEq : sortByKey (fun f => strKey f.fileName)
      (rootFileNodes (roots'.map replaceBackslashes) l) =
      sortByKey (fun f => strKey f.fileName)
        (rootFileNodes (roots'.map replaceBackslashes) l') :=
    sortByKey_eq_of_perm _ hroot (fun a ha b hb hf => h2 a ha b hb (strKey_inj hf))
  have hnonroot : (nonRootFileNodes (roots'.map replaceBackslashes) l).Perm
      (nonRootFileNodes (roots'.map replaceBackslashes) l') := hfn.filter _
  have hdirkeys : sortByKey strKey (dirKeysOf (roots'.map replaceBackslashes) l) =
      sortByKey strKey (dirKeysOf (roots'.map replaceBackslashes) l') :=
    sortByKey_eq_of_perm strKey (mapKeys_perm _ hnonroot) (fun a _ b _ h => strKey_inj h)
  have hdirfiles : ∀ d ∈ dirKeysOf (roots'.map replaceBackslashes) l,
      sortByKey (fun f => strKey f.fileName)
        (dirFiles (roots'.map replaceBackslashes) l d) =
      sortByKey (fun f => strKey f.fileName)
        (dirFiles (roots'.map replaceBackslashes) l' d) := by
    intro d hd
    exact sortByKey_eq_of_perm _ (hnonroot.filter _)
      (fun a ha b hb hf => h3 d hd a ha b hb (strKey_inj hf))
  have hdirs : (sortByKey strKey (dirKeysOf (roots'.map replaceBackslashes) l)).map
      (fun d => TreeNode.directory (posixBasename d) d
        (sortByKey (fun f => strKey f.fileName)
          (dirFiles (roots'.map replaceBackslashes) l d))) =
      (sortByKey strKey (dirKeysOf (roots'.map replaceBackslashes) l')).map
      (fun d => TreeNode.directory (posixBasename d) d
        (sortByKey (fun f => strKey f.fileName)
          (dirFiles (roots'.map replaceBackslashes) l' d))) := by
    rw [← hdirkeys]
    refine List.map_congr_left ?_
    intro d hd
    rw [hdirfiles d (mem_sortByKey.1 hd)]
  simp only [buildTree]
  rw [hrootEq, hdirs]

def cexLeafChar0 : ReferenceLeaf :=
  { uri := "file:///proj/a.ts", fileName := "a.ts", fullPath := "/proj/a.ts",
    line := 0, character := 0, previewText := "f(f(x))", enclosingSymbol := none,
    originalLocation := { uriStr := "file:///proj/a.ts", fsPath := "/proj/a.ts",
                          line := 0, character := 0 } }

def cexLeafChar2 : ReferenceLeaf :=
  { uri := "file:///proj/a.ts", fileName := "a.ts", fullPath := "/proj/a.ts",
    line := 0, character := 2, previewText := "f(f(x))", enclosingSymbol := none,
    originalLocation := { uriStr := "file:///proj/a.ts", fsPath := "/proj/a.ts",
                          line := 0, character := 2 } }

/-- C8, counterexample: two loose leaves of the same file on the same line
(different columns) keep their input order under the stable line sort, so
permuting the input list changes the resulting tree. -/
theorem buildTree_not_order_independent :
    ([cexLeafChar0, cexLeafChar2].Perm [cexLeafChar2, cexLeafChar0]) ∧
    buildTree ["/proj"] [cexLeafChar0, cexLeafChar2] ≠
      buildTree ["/proj"] [cexLeafChar2, cexLeafChar0] := by
  constructor
  · decide
  · decide

theorem buildTree_perm_invariant_witness :
    buildTree ["/proj"] [wLeafF4, wLeafL2, wLeafF1] =
      buildTree ["/proj"] [wLeafF1, wLeafF4, wLeafL2] :=
  buildTree_perm_invariant ["/proj"] [wLeafF4, wLeafL2, wLeafF1]
    [wLeafF1, wLeafF4, wLeafL2] (by decide) (by decide) (by decide) (by decide)

end RefView
